import Mathlib

/-!
Verification of the Brownian-path generator in `src/sde/sde.py`.

The core function of the repository is

    def brown(T, N, N_ens=1):
        dt = T / N
        sqrt_dt = np.sqrt(dt)
        dW = random.normal(0., sqrt_dt, (N_ens, N))
        W = np.zeros((N_ens, N + 1))
        W[:, 1:] = np.cumsum(dW, axis=1)
        return W, dW

We embed it shallowly: real numbers stand in for floats, matrices are
lists of row lists, and the process-wide random source is modelled by a
stream `u : ℕ → ℝ` of unit-normal draws consumed in row-major order, so
that `numpy.random.normal(mu, sigma, (rows, cols))` returns the matrix
whose `(k, j)` entry is `mu + sigma * u (k * cols + j)`.  Python raises
`ZeroDivisionError` on `T / N` when `N = 0`, so the embedding returns
`Except`; no other statement of `brown` can raise for the inputs the
claims consider (`numpy` accepts a zero standard deviation and zero
array dimensions).
-/

namespace SDE

/-- A run-time error of the Python code.  The only error `brown` itself can
raise on the inputs under study is the `ZeroDivisionError` from `T / N`
when `N = 0`; the code contains no argument validation and never raises
an invalid-argument error. -/
inductive PyError
  | zeroDivision
deriving DecidableEq

/-- Running cumulative sums of a list starting from the accumulator `acc`:
`cumsumFrom acc [x1, x2, ...] = [acc + x1, acc + x1 + x2, ...]`.
Left-to-right accumulation, matching `numpy`'s sequential summation
order along the axis. -/
def cumsumFrom (acc : ℝ) : List ℝ → List ℝ
  | [] => []
  | x :: xs => (acc + x) :: cumsumFrom (acc + x) xs

/-- `np.cumsum` of one row: running totals starting from `0`. -/
def cumsum (xs : List ℝ) : List ℝ := cumsumFrom 0 xs

/-- `numpy.random.normal(mu, sigma, (rows, cols))` under the stream model:
the draw at row `k`, column `j` is `mu + sigma * u (k * cols + j)`,
the stream `u` of unit-normal draws being consumed in row-major (C)
order, which is how `numpy` fills a freshly drawn array. -/
def normalMatrix (u : ℕ → ℝ) (mu sigma : ℝ) (rows cols : ℕ) : List (List ℝ) :=
  (List.range rows).map fun k => (List.range cols).map fun j => mu + sigma * u (k * cols + j)

/-- The path generator `brown(T, N, N_ens)` of `src/sde/sde.py`.

`dt = T / N` (raising `ZeroDivisionError` when `N = 0`, as Python float
division does), `sqrt_dt = np.sqrt(dt)`,
`dW = random.normal(0., sqrt_dt, (N_ens, N))`, and `W` is the
`(N_ens, N + 1)` zero matrix whose columns `1..N` are overwritten with
the per-row cumulative sums of `dW`, i.e. each row of `W` is `0`
followed by the running totals of the corresponding row of `dW`.
`numpy`'s `np.sqrt` is modelled by `Real.sqrt`; the two agree on all
nonnegative arguments, which covers every input the claims mention. -/
noncomputable def brown (u : ℕ → ℝ) (T : ℝ) (N : ℕ) (N_ens : ℕ) :
    Except PyError (List (List ℝ) × List (List ℝ)) :=
  if N = 0 then .error .zeroDivision
  else
    let dt : ℝ := T / N
    let sqrt_dt : ℝ := Real.sqrt dt
    let dW := normalMatrix u 0 sqrt_dt N_ens N
    let W := dW.map fun row => 0 :: cumsum row
    .ok (W, dW)

/-- Calling `brown(T, N)` with the ensemble size omitted: Python supplies
the declared default `N_ens = 1`. -/
noncomputable def brownDefault (u : ℕ → ℝ) (T : ℝ) (N : ℕ) :
    Except PyError (List (List ℝ) × List (List ℝ)) :=
  brown u T N 1

/-- Entry `M[k, j]` of a matrix stored as a list of rows, with `0` as the
out-of-range default (all uses below are guarded by bounds). -/
noncomputable def entry (M : List (List ℝ)) (k j : ℕ) : ℝ :=
  (M.getD k []).getD j 0

/-- The stubbed draw stream of the spec's scenario: with `T = 1`, `N = 4`
the standard deviation is `sqrt(1/4) = 1/2`, so unit draws
`[0.2, -0.4, 0.6, 0.1]` make the generated increments come out as
`[0.1, -0.2, 0.3, 0.05]`. -/
noncomputable def stubDraws : ℕ → ℝ := fun n => [0.2, -0.4, 0.6, 0.1].getD n 0

theorem cumsumFrom_length (xs : List ℝ) : ∀ acc, (cumsumFrom acc xs).length = xs.length := by
  induction xs with
  | nil => intro acc; rfl
  | cons x xs ih => intro acc; simp [cumsumFrom, ih]

theorem cumsum_length (xs : List ℝ) : (cumsum xs).length = xs.length :=
  cumsumFrom_length xs 0

theorem cumsumFrom_getD_zero (x : ℝ) (xs : List ℝ) (acc : ℝ) :
    (cumsumFrom acc (x :: xs)).getD 0 0 = acc + x := by
  simp [cumsumFrom]

theorem cumsumFrom_getD_succ (xs : List ℝ) :
    ∀ acc j, j + 1 < xs.length →
      (cumsumFrom acc xs).getD (j + 1) 0 =
        (cumsumFrom acc xs).getD j 0 + xs.getD (j + 1) 0 := by
  induction xs with
  | nil => intro acc j h; simp at h
  | cons x xs ih =>
    intro acc j h
    match j with
    | 0 =>
      match xs with
      | [] => simp at h
      | y :: ys => simp [cumsumFrom]
    | j + 1 =>
      have h2 : j + 1 < xs.length := by simpa using h
      simpa [cumsumFrom] using ih (acc + x) j h2

theorem getD_map_range {α : Type} (f : ℕ → α) (d : α) {k n : ℕ} (h : k < n) :
    ((List.range n).map f).getD k d = f k := by
  rw [List.getD_eq_getElem?_getD]
  simp [List.getElem?_map, List.getElem?_range h]

theorem cumsumFrom_replicate_zero : ∀ n : ℕ, cumsumFrom 0 (List.replicate n (0 : ℝ)) = List.replicate n 0 := by
  intro n
  induction n with
  | zero => rfl
  | succ m ih => simp [List.replicate_succ, cumsumFrom, ih]

theorem brown_ok (u : ℕ → ℝ) (T : ℝ) {N : ℕ} (E : ℕ) (hN : N ≠ 0) :
    brown u T N E =
      .ok ((normalMatrix u 0 (Real.sqrt (T / N)) E N).map (fun row => 0 :: cumsum row),
           normalMatrix u 0 (Real.sqrt (T / N)) E N) := by
  simp [brown, hN]

theorem normalMatrix_length (u : ℕ → ℝ) (mu sigma : ℝ) (rows cols : ℕ) :
    (normalMatrix u mu sigma rows cols).length = rows := by
  simp [normalMatrix]

theorem normalMatrix_getD (u : ℕ → ℝ) (mu sigma : ℝ) {rows : ℕ} (cols : ℕ) {k : ℕ}
    (hk : k < rows) :
    (normalMatrix u mu sigma rows cols).getD k [] =
      (List.range cols).map fun j => mu + sigma * u (k * cols + j) := by
  unfold normalMatrix
  exact getD_map_range _ _ hk

theorem normalMatrix_entry (u : ℕ → ℝ) (mu sigma : ℝ) {rows cols : ℕ} {k j : ℕ}
    (hk : k < rows) (hj : j < cols) :
    entry (normalMatrix u mu sigma rows cols) k j = mu + sigma * u (k * cols + j) := by
  unfold entry
  rw [normalMatrix_getD u mu sigma cols hk]
  exact getD_map_range _ _ hj

theorem normalMatrix_row_length (u : ℕ → ℝ) (mu sigma : ℝ) (rows cols : ℕ)
    {row : List ℝ} (h : row ∈ normalMatrix u mu sigma rows cols) :
    row.length = cols := by
  unfold normalMatrix at h
  obtain ⟨k, hk, rfl⟩ := List.mem_map.mp h
  simp

theorem map_getD_of_lt {α β : Type} (f : α → β) (l : List α) (da : α) (db : β) {k : ℕ}
    (hk : k < l.length) : (l.map f).getD k db = f (l.getD k da) := by
  rw [List.getD_eq_getElem?_getD, List.getElem?_map, List.getElem?_eq_getElem hk,
    List.getD_eq_getElem l da hk]
  rfl

theorem brown_shapes (u : ℕ → ℝ) (T : ℝ) {N : ℕ} (E : ℕ) (hN : N ≠ 0) :
    ∃ W dW, brown u T N E = .ok (W, dW) ∧
      W.length = E ∧ (∀ row ∈ W, row.length = N + 1) ∧
      dW.length = E ∧ (∀ row ∈ dW, row.length = N) := by
  refine ⟨_, _, brown_ok u T E hN, ?_, ?_, ?_, ?_⟩
  · simp [normalMatrix_length]
  · intro row hrow
    obtain ⟨r, hr, rfl⟩ := List.mem_map.mp hrow
    have := normalMatrix_row_length u 0 (Real.sqrt (T / N)) E N hr
    simp [cumsum_length, this]
  · exact normalMatrix_length u 0 (Real.sqrt (T / N)) E N
  · intro row hrow
    exact normalMatrix_row_length u 0 (Real.sqrt (T / N)) E N hrow

theorem brown_zero_T (u : ℕ → ℝ) {N : ℕ} (E : ℕ) (hN : N ≠ 0) :
    brown u 0 N E =
      .ok (List.replicate E (List.replicate (N + 1) 0),
           List.replicate E (List.replicate N 0)) := by
  rw [brown_ok u 0 E hN]
  have h0 : Real.sqrt ((0 : ℝ) / N) = 0 := by rw [zero_div, Real.sqrt_zero]
  have hmat : normalMatrix u 0 (Real.sqrt ((0 : ℝ) / N)) E N =
      List.replicate E (List.replicate N 0) := by
    refine List.eq_replicate_iff.mpr ⟨normalMatrix_length u _ _ E N, ?_⟩
    intro row hrow
    unfold normalMatrix at hrow
    obtain ⟨k, hk, rfl⟩ := List.mem_map.mp hrow
    refine List.eq_replicate_iff.mpr ⟨by simp, ?_⟩
    intro x hx
    obtain ⟨j, hj, rfl⟩ := List.mem_map.mp hx
    rw [h0]
    ring
  rw [hmat, List.map_replicate, cumsum, cumsumFrom_replicate_zero, ← List.replicate_succ]

theorem brown_ok_inv (u : ℕ → ℝ) (T : ℝ) {N E : ℕ} (hN : N ≠ 0)
    {W dW : List (List ℝ)} (hok : brown u T N E = .ok (W, dW)) :
    dW = normalMatrix u 0 (Real.sqrt (T / N)) E N ∧ W = dW.map fun row => 0 :: cumsum row := by
  rw [brown_ok u T E hN, Except.ok.injEq, Prod.mk.injEq] at hok
  obtain ⟨hW, hdW⟩ := hok
  exact ⟨hdW.symm, by rw [← hW, hdW]⟩

/-- C2: for every valid input (`T > 0`, `N > 0`, `N_ens > 0`), `brown`
returns a pair `(W, dW)` with `W` of shape `(N_ens, N + 1)` and `dW` of
shape `(N_ens, N)`. -/
theorem brown_shape (u : ℕ → ℝ) (T : ℝ) (N N_ens : ℕ)
    (hT : 0 < T) (hN : 0 < N) (hE : 0 < N_ens) :
    ∃ W dW, brown u T N N_ens = .ok (W, dW) ∧
      W.length = N_ens ∧ (∀ row ∈ W, row.length = N + 1) ∧
      dW.length = N_ens ∧ (∀ row ∈ dW, row.length = N) :=
  brown_shapes u T N_ens hN.ne'

/-- C2 witness: the shape invariant instantiated at `T = 1`, `N = 1`,
`N_ens = 1`. -/
theorem brown_shape_witness :
    ((0 : ℝ) < 1 ∧ (0 : ℕ) < 1) ∧
      ∃ W dW, brown (fun _ => 1) 1 1 1 = .ok (W, dW) ∧
        W.length = 1 ∧ (∀ row ∈ W, row.length = 1 + 1) ∧
        dW.length = 1 ∧ (∀ row ∈ dW, row.length = 1) :=
  ⟨⟨by norm_num, by norm_num⟩,
    brown_shape (fun _ => 1) 1 1 1 (by norm_num) (by norm_num) (by norm_num)⟩

/-- C3: for every valid input and every ensemble row `k`, the first entry
of the returned path is exactly zero: `W[k, 0] = 0`. -/
theorem brown_initial_zero (u : ℕ → ℝ) (T : ℝ) (N N_ens : ℕ)
    (hT : 0 < T) (hN : 0 < N) (hE : 0 < N_ens)
    (W dW : List (List ℝ)) (hok : brown u T N N_ens = .ok (W, dW))
    (k : ℕ) (hk : k < N_ens) : entry W k 0 = 0 := by
  obtain ⟨hdW, hW⟩ := brown_ok_inv u T hN.ne' hok
  have hkdW : k < dW.length := by rw [hdW, normalMatrix_length]; exact hk
  unfold entry
  rw [hW, map_getD_of_lt _ _ [] [] hkdW, List.getD_cons_zero]

theorem brown_eval_one :
    brown (fun _ => (1 : ℝ)) 1 1 1 = .ok ([[0, 1]], [[1]]) := by
  rw [brown_ok _ 1 1 one_ne_zero]
  norm_num [normalMatrix, cumsum, cumsumFrom, Real.sqrt_one]

/-- C3 witness: the zero initial condition instantiated at `T = 1`,
`N = 1`, `N_ens = 1` with the constant-one draw stream, whose output is
`W = [[0, 1]]`, `dW = [[1]]`. -/
theorem brown_initial_zero_witness :
    brown (fun _ => (1 : ℝ)) 1 1 1 = .ok ([[0, 1]], [[1]]) ∧
      entry [[(0 : ℝ), 1]] 0 0 = 0 :=
  ⟨brown_eval_one,
    brown_initial_zero (fun _ => 1) 1 1 1 (by norm_num) (by norm_num) (by norm_num)
      [[0, 1]] [[1]] brown_eval_one 0 (by norm_num)⟩

/-- C9: with `T = 0` and positive `N` and `N_ens`, `brown` returns without
error, and both matrices are filled with exact zeros: `dW` is the
`(N_ens, N)` zero matrix and `W` the `(N_ens, N + 1)` zero matrix,
because `dt = 0` makes the normal draws have standard deviation
`sqrt 0 = 0`. -/
theorem brown_zero_horizon (u : ℕ → ℝ) (N N_ens : ℕ) (hN : 0 < N) (hE : 0 < N_ens) :
    brown u 0 N N_ens =
      .ok (List.replicate N_ens (List.replicate (N + 1) 0),
           List.replicate N_ens (List.replicate N 0)) :=
  brown_zero_T u N_ens hN.ne'

/-- C9 witness: `T = 0`, `N = 2`, `N_ens = 1` yields
`W = [[0, 0, 0]]`, `dW = [[0, 0]]`. -/
theorem brown_zero_horizon_witness :
    ((0 : ℕ) < 2 ∧ (0 : ℕ) < 1) ∧
      brown (fun n => n) 0 2 1 =
        .ok (List.replicate 1 (List.replicate 3 0), List.replicate 1 (List.replicate 2 0)) :=
  ⟨⟨by norm_num, by norm_num⟩, brown_zero_horizon (fun n => n) 2 1 (by norm_num) (by norm_num)⟩

/-- C10: with `N_ens = 0` and valid `T > 0`, `N > 0`, `brown` returns
without error the pair of empty matrices (zero rows each). -/
theorem brown_zero_ensemble (u : ℕ → ℝ) (T : ℝ) (N : ℕ) (hT : 0 < T) (hN : 0 < N) :
    brown u T N 0 = .ok ([], []) := by
  rw [brown_ok u T 0 hN.ne']
  simp [normalMatrix]

/-- C10 witness: `T = 1`, `N = 10`, `N_ens = 0` yields the empty pair. -/
theorem brown_zero_ensemble_witness :
    ((0 : ℝ) < 1 ∧ (0 : ℕ) < 10) ∧ brown (fun n => n) 1 10 0 = .ok ([], []) :=
  ⟨⟨by norm_num, by norm_num⟩, brown_zero_ensemble (fun n => n) 1 10 (by norm_num) (by norm_num)⟩

/-- C4 counterexample: the claim says `brown(T=0.0, N=10, N_ens=1)` fails
with `InvalidArgument`, but the code performs no validation and succeeds,
returning all-zero matrices of shapes `(1, 11)` and `(1, 10)`. -/
theorem brown_invalid_args_counterexample :
    brown (fun _ => 1) 0 10 1 =
      .ok (List.replicate 1 (List.replicate 11 0), List.replicate 1 (List.replicate 10 0)) :=
  brown_zero_T (fun _ => 1) 1 (by norm_num)

/-- C4 amended: the code performs no argument validation and never raises
an invalid-argument error.  On the spec's three error-case inputs:
`brown(T=1.0, N=0, N_ens=1)` fails, but with the `ZeroDivisionError`
raised by `dt = T / N` (before any random draw); `brown(T=0.0, N=10,
N_ens=1)` succeeds and returns all-zero matrices; `brown(T=1.0, N=10,
N_ens=0)` succeeds and returns empty matrices. -/
theorem brown_no_validation (u : ℕ → ℝ) :
    brown u 1 0 1 = .error .zeroDivision ∧
    brown u 0 10 1 =
      .ok (List.replicate 1 (List.replicate 11 0), List.replicate 1 (List.replicate 10 0)) ∧
    brown u 1 10 0 = .ok ([], []) :=
  ⟨by simp [brown], brown_zero_T u 1 (by norm_num),
    by rw [brown_ok u 1 0 (by norm_num)]; simp [normalMatrix]⟩

/-- C1: for every valid input, every returned pair `(W, dW)`, every row
`k` and every step index `j` in `[1, N]`, the cumulative-sum identity
`W[k, j] = W[k, j - 1] + dW[k, j - 1]` holds exactly. -/
theorem brown_cumsum_identity (u : ℕ → ℝ) (T : ℝ) (N N_ens : ℕ)
    (hT : 0 < T) (hN : 0 < N) (hE : 0 < N_ens)
    (W dW : List (List ℝ)) (hok : brown u T N N_ens = .ok (W, dW))
    (k j : ℕ) (hk : k < N_ens) (hj1 : 1 ≤ j) (hjN : j ≤ N) :
    entry W k j = entry W k (j - 1) + entry dW k (j - 1) := by
  obtain ⟨hdW, hW⟩ := brown_ok_inv u T hN.ne' hok
  have hkdW : k < dW.length := by rw [hdW, normalMatrix_length]; exact hk
  have hrowlen : (dW.getD k []).length = N := by
    rw [hdW, normalMatrix_getD u 0 _ N hk]
    simp
  unfold entry
  rw [hW, map_getD_of_lt _ dW [] [] hkdW]
  obtain ⟨m, rfl⟩ : ∃ m, j = m + 1 := ⟨j - 1, (Nat.succ_pred_eq_of_pos hj1).symm⟩
  simp only [Nat.add_sub_cancel]
  rw [List.getD_cons_succ]
  match m, hjN with
  | 0, _ =>
    rw [List.getD_cons_zero]
    have hne : dW.getD k [] ≠ [] := by
      intro hnil
      rw [hnil] at hrowlen
      simp at hrowlen
      omega
    obtain ⟨x, rest, hxr⟩ := List.exists_cons_of_ne_nil hne
    rw [hxr]
    simp only [cumsum]
    rw [cumsumFrom_getD_zero, List.getD_cons_zero]
  | mm + 1, hjN2 =>
    rw [List.getD_cons_succ]
    simp only [cumsum]
    exact cumsumFrom_getD_succ (dW.getD k []) 0 mm (by rw [hrowlen]; omega)

/-- C1 witness: the cumulative-sum identity instantiated at `T = 1`,
`N = 1`, `N_ens = 1`, `k = 0`, `j = 1` with the constant-one draw stream,
whose output is `W = [[0, 1]]`, `dW = [[1]]`: `1 = 0 + 1`. -/
theorem brown_cumsum_identity_witness :
    brown (fun _ => (1 : ℝ)) 1 1 1 = .ok ([[0, 1]], [[1]]) ∧
      entry [[(0 : ℝ), 1]] 0 1 = entry [[(0 : ℝ), 1]] 0 0 + entry [[(1 : ℝ)]] 0 0 :=
  ⟨brown_eval_one,
    brown_cumsum_identity (fun _ => 1) 1 1 1 (by norm_num) (by norm_num) (by norm_num)
      [[0, 1]] [[1]] brown_eval_one 0 1 (by norm_num) (by norm_num) (by norm_num)⟩

/-- C5: with `T = 1`, `N = 4`, `N_ens = 1`, whenever the random source
makes the generated increments come out as `[0.1, -0.2, 0.3, 0.05]`, the
returned path is `W = [0, 0.1, -0.1, 0.2, 0.25]`. -/
theorem brown_scenario (u : ℕ → ℝ) (W : List (List ℝ))
    (hok : brown u 1 4 1 = .ok (W, [[0.1, -0.2, 0.3, 0.05]])) :
    W = [[0, 0.1, -0.1, 0.2, 0.25]] := by
  obtain ⟨hdW, hW⟩ := brown_ok_inv u 1 (by norm_num) hok
  rw [hW]
  norm_num [cumsum, cumsumFrom]

theorem brown_stub_eval :
    brown stubDraws 1 4 1 = .ok ([[0, 0.1, -0.1, 0.2, 0.25]], [[0.1, -0.2, 0.3, 0.05]]) := by
  rw [brown_ok stubDraws 1 1 (by norm_num)]
  have hs : Real.sqrt ((1 : ℝ) / ((4 : ℕ) : ℝ)) = 1 / 2 := by
    rw [show ((1 : ℝ) / ((4 : ℕ) : ℝ)) = (1 / 2) ^ 2 by push_cast; norm_num]
    exact Real.sqrt_sq (by norm_num)
  rw [hs]
  norm_num [normalMatrix, cumsum, cumsumFrom, stubDraws, List.range_succ]

/-- C5 witness: the stub stream `stubDraws` realizes the scenario, and the
scenario theorem applied to it yields the stated `W`. -/
theorem brown_scenario_witness :
    brown stubDraws 1 4 1 = .ok ([[0, 0.1, -0.1, 0.2, 0.25]], [[0.1, -0.2, 0.3, 0.05]]) ∧
      ([[(0 : ℝ), 0.1, -0.1, 0.2, 0.25]] : List (List ℝ)) = [[0, 0.1, -0.1, 0.2, 0.25]] :=
  ⟨brown_stub_eval, brown_scenario stubDraws _ brown_stub_eval⟩

/-- C6: for every valid input, `brown` computes `dt = T / N` and each
increment `dW[k, j]` is the unit-normal draw at stream position
`k * N + j` scaled by `sqrt(dt)` — i.e. a draw from a normal distribution
with mean `0` and standard deviation `sqrt(T / N)` under the stream model
of the random source. -/
theorem brown_increment_scaling (u : ℕ → ℝ) (T : ℝ) (N N_ens : ℕ)
    (hT : 0 < T) (hN : 0 < N) (hE : 0 < N_ens) :
    ∃ W dW, brown u T N N_ens = .ok (W, dW) ∧
      ∀ k j, k < N_ens → j < N →
        entry dW k j = Real.sqrt (T / N) * u (k * N + j) := by
  refine ⟨_, _, brown_ok u T N_ens hN.ne', ?_⟩
  intro k j hk hj
  rw [normalMatrix_entry u 0 (Real.sqrt (T / N)) hk hj, zero_add]

/-- C6 witness: the scaling property instantiated at `T = 1`, `N = 1`,
`N_ens = 1` with the constant-one draw stream. -/
theorem brown_increment_scaling_witness :
    ((0 : ℝ) < 1 ∧ (0 : ℕ) < 1) ∧
      ∃ W dW, brown (fun _ => (1 : ℝ)) 1 1 1 = .ok (W, dW) ∧
        ∀ k j, k < 1 → j < 1 →
          entry dW k j = Real.sqrt ((1 : ℝ) / ((1 : ℕ) : ℝ)) * 1 :=
  ⟨⟨by norm_num, by norm_num⟩,
    brown_increment_scaling (fun _ => 1) 1 1 1 (by norm_num) (by norm_num) (by norm_num)⟩

/-- C7: two calls with identical arguments that consume the same stream of
random draws (the situation after resetting the random source to the same
seed) produce identical `W` and `dW`; only the first `N_ens * N` draws
matter. -/
theorem brown_deterministic (u1 u2 : ℕ → ℝ) (T : ℝ) (N N_ens : ℕ)
    (h : ∀ n, n < N_ens * N → u1 n = u2 n) :
    brown u1 T N N_ens = brown u2 T N N_ens := by
  by_cases hN : N = 0
  · simp [brown, hN]
  · rw [brown_ok u1 T N_ens hN, brown_ok u2 T N_ens hN]
    have hmat : normalMatrix u1 0 (Real.sqrt (T / N)) N_ens N =
        normalMatrix u2 0 (Real.sqrt (T / N)) N_ens N := by
      unfold normalMatrix
      apply List.map_congr_left
      intro k hk
      apply List.map_congr_left
      intro j hj
      have hkN : k < N_ens := List.mem_range.mp hk
      have hjN : j < N := List.mem_range.mp hj
      have hlt : k * N + j < N_ens * N := by
        have h1 : k * N + j < (k + 1) * N := by
          rw [Nat.succ_mul]
          omega
        have h2 : (k + 1) * N ≤ N_ens * N := Nat.mul_le_mul (by omega) (le_refl N)
        omega
      rw [h _ hlt]
    rw [hmat]

/-- C7 witness: the streams `fun _ => 1` and `fun i => if i < 2 then 1
else 0` agree on the first `1 * 2` draws, so `brown` at `T = 1`, `N = 2`,
`N_ens = 1` returns the same result for both. -/
theorem brown_deterministic_witness :
    (∀ n, n < 1 * 2 → (fun _ => (1 : ℝ)) n = (fun i => if i < 2 then (1 : ℝ) else 0) n) ∧
      brown (fun _ => (1 : ℝ)) 1 2 1 = brown (fun i => if i < 2 then (1 : ℝ) else 0) 1 2 1 := by
  constructor
  · intro n hn
    have h2 : n < 2 := by omega
    simp [h2]
  · exact brown_deterministic _ _ 1 2 1 (by
      intro n hn
      have h2 : n < 2 := by omega
      simp [h2])

/-- C8: calling `brown` with the ensemble size omitted behaves as
`N_ens = 1`: it returns `W` of shape `(1, N + 1)` and `dW` of shape
`(1, N)`. -/
theorem brownDefault_shape (u : ℕ → ℝ) (T : ℝ) (N : ℕ) (hT : 0 < T) (hN : 0 < N) :
    brownDefault u T N = brown u T N 1 ∧
      ∃ W dW, brownDefault u T N = .ok (W, dW) ∧
        W.length = 1 ∧ (∀ row ∈ W, row.length = N + 1) ∧
        dW.length = 1 ∧ (∀ row ∈ dW, row.length = N) :=
  ⟨rfl, brown_shapes u T 1 hN.ne'⟩

/-- C8 witness: the default-ensemble behavior instantiated at `T = 1`,
`N = 1`. -/
theorem brownDefault_shape_witness :
    ((0 : ℝ) < 1 ∧ (0 : ℕ) < 1) ∧
      (brownDefault (fun _ => (1 : ℝ)) 1 1 = brown (fun _ => (1 : ℝ)) 1 1 1 ∧
        ∃ W dW, brownDefault (fun _ => (1 : ℝ)) 1 1 = .ok (W, dW) ∧
          W.length = 1 ∧ (∀ row ∈ W, row.length = 1 + 1) ∧
          dW.length = 1 ∧ (∀ row ∈ dW, row.length = 1)) :=
  ⟨⟨by norm_num, by norm_num⟩,
    brownDefault_shape (fun _ => 1) 1 1 (by norm_num) (by norm_num)⟩

end SDE
